import Mathlib

/-!
# ATFLParser — verification of the core against its specification

Shallow embedding of the core of the ATFLParser repository:

* `src/regex_preprocessor.cpp` — pattern preprocessing (character-class and
  escape expansion, `+` expansion, explicit-concatenation insertion) and the
  shunting-yard infix-to-postfix converter;
* `src/thompsons_construction.cpp` — Thompson-style automaton builder over a
  work stack of fragments;
* `src/nfa_state.h` / `src/nfa_state.cpp` — the state arena (`StateManager`),
  modelled as a list of nodes indexed by state id (ids are allocation order);
* `src/nfa_simulator.cpp` — epsilon-closure and subset-construction
  simulation, with the step-trace variant;
* `src/adaptive_pda.cpp` — the adaptive LL(1) parser with its affinity-driven
  repair policy.

Machine state (the C++ global `StateManager`, the mutable transition maps,
the parser's member `adaptiveMap`) is made explicit by state passing.  The
C++ `exit(1)` calls are modelled as distinguished outcome constructors
(`BuildResult.exitProcess`, `ParseResult.procExit`), so that claims about
error propagation can be stated.  Recursions that C++ bounds dynamically
(the depth of the epsilon-closure DFS, the parser's `while` loop) take an
explicit fuel argument; the termination theorems show a computable fuel
bound is always sufficient.
-/

/-! ## Pattern preprocessor (`src/regex_preprocessor.cpp`) -/

/-- Characters produced by `for (char c = start; c <= end; c++)` in
`expandCharacterClass`; empty when `start > end`. -/
def rangeChars (a b : Char) : List Char :=
  (List.range (b.toNat + 1 - a.toNat)).map (fun k => Char.ofNat (a.toNat + k))

/-- The range-or-literal scan of a character-class body (`expandCharacterClass`,
first loop): `x-y` with at least one following position expands to the
inclusive range, anything else is kept literally. -/
def classChars : List Char → List Char
  | a :: '-' :: b :: rest => rangeChars a b ++ classChars rest
  | a :: rest => a :: classChars rest
  | [] => []

/-- Negation of a class: the printable-ASCII characters (33–126) not in the
set (`expandCharacterClass`, negation branch). -/
def negateChars (cs : List Char) : List Char :=
  ((List.range 94).map (fun k => Char.ofNat (33 + k))).filter (fun c => !(cs.contains c))

/-- Join characters with `|` (`expandCharacterClass`, union-building loop). -/
def interBar : List Char → List Char
  | [] => []
  | [c] => [c]
  | c :: rest => c :: '|' :: interBar rest

/-- `expandCharacterClass(classContent, negate)` from
`src/regex_preprocessor.cpp`: expand ranges, optionally negate over printable
ASCII, and build a parenthesized union (empty class gives the empty string,
a one-character class gives just that character). -/
def expandCharacterClass (content : List Char) (negate : Bool) : List Char :=
  let chars := classChars content
  let chars := if negate then negateChars chars else chars
  if chars = [] then []
  else if chars.length = 1 then chars
  else '(' :: interBar chars ++ [')']

/-- PASS 0 of `preprocessRegex`: expand `\d`, `\w`, `\s` (space only), keep
unknown escapes literally (the backslash is emitted and the next character is
re-examined), expand `[...]` classes up to the first `]` (with `[^...]`
negation), and pass a `[` with no closing `]` through literally.  Every step
consumes at least one input character, so the fuel `classExpand` supplies —
the input length — always suffices (the `0` case is unreachable). -/
def classExpandGo : Nat → List Char → List Char
  | 0, l => l
  | fuel + 1, input =>
    match input with
    | '\\' :: next :: rest =>
      if next = 'd' then
        "(0|1|2|3|4|5|6|7|8|9)".toList ++ classExpandGo fuel rest
      else if next = 'w' then
        "(A|B|C|D|E|F|G|H|I|J|K|L|M|N|O|P|Q|R|S|T|U|V|W|X|Y|Z|a|b|c|d|e|f|g|h|i|j|k|l|m|n|o|p|q|r|s|t|u|v|w|x|y|z|0|1|2|3|4|5|6|7|8|9|_)".toList
          ++ classExpandGo fuel rest
      else if next = 's' then
        "( )".toList ++ classExpandGo fuel rest
      else
        '\\' :: classExpandGo fuel (next :: rest)
    | '[' :: rest =>
      (match rest.findIdx? (fun c => c = ']') with
       | some k =>
         let content := rest.take k
         let remainder := rest.drop (k + 1)
         (match content with
          | '^' :: body => expandCharacterClass body true
          | _ => expandCharacterClass content false) ++ classExpandGo fuel remainder
       | none => '[' :: classExpandGo fuel rest)
    | c :: rest => c :: classExpandGo fuel rest
    | [] => []

/-- PASS 0 of `preprocessRegex` (see `classExpandGo`). -/
def classExpand (l : List Char) : List Char :=
  classExpandGo l.length l

/-- The backward scan for the `(` balancing the group that precedes a `+`
(`preprocessRegex`, PASS 1: `depth`/`j` loop).  `scanGroup e j depth` is the
loop with current index `j`; `some j` is the break at `depth == 0`, `none` is
the loop running off the left end. -/
def scanGroup (e : List Char) : Nat → Nat → Option Nat
  | j, depth =>
    let d := if e.getD j ' ' = ')' then depth + 1
             else if e.getD j ' ' = '(' then depth - 1
             else depth
    if d = 0 then some j
    else match j with
      | 0 => none
      | j' + 1 => scanGroup e j' d

/-- PASS 1 of `preprocessRegex`: rewrite `X+` to `XX*`, where `X` is the
single preceding character, or the whole preceding parenthesized group when
the previous character is `)`.  A `+` with nothing before it, or whose group
scan fails, is dropped.  The accumulator is the C++ `expanded` string. -/
def plusExpand : List Char → List Char → List Char
  | [], e => e
  | c :: rest, e =>
    if c = '+' then
      match e.getLast? with
      | none => plusExpand rest e
      | some prev =>
        if prev = ')' then
          if e.length < 2 then plusExpand rest e
          else
            match scanGroup e (e.length - 2) 1 with
            | some j => plusExpand rest (e ++ e.drop j ++ ['*'])
            | none => plusExpand rest e
        else plusExpand rest (e ++ [prev, '*'])
    else plusExpand rest (e ++ [c])

/-- PASS 2 of `preprocessRegex`: insert an explicit concatenation `.` between
`c` and `next` whenever `c` is not `|` or `(` and `next` is not `|`, `*`
or `)`. -/
def dotInsert : List Char → List Char
  | [] => []
  | [c] => [c]
  | c :: next :: rest =>
    if (c ≠ '|' ∧ c ≠ '(') ∧ (next ≠ '|' ∧ next ≠ '*' ∧ next ≠ ')') then
      c :: '.' :: dotInsert (next :: rest)
    else
      c :: dotInsert (next :: rest)

/-- `preprocessRegex` from `src/regex_preprocessor.cpp`: class/escape
expansion, then `+` expansion, then explicit-concatenation insertion. -/
def preprocessRegex (s : String) : String :=
  ⟨dotInsert (plusExpand (classExpand s.toList) [])⟩

/-! ## Infix-to-postfix converter (`src/regex_preprocessor.cpp`) -/

/-- Operator precedence: `*` 3, `.` 2, `|` 1, anything else 0. -/
def precedence (c : Char) : Nat :=
  if c = '*' then 3 else if c = '.' then 2 else if c = '|' then 1 else 0

/-- Pop stacked operators while the top has precedence at least that of the
incoming operator `c`; returns the popped operators (in output order) and the
remaining stack. -/
def popWhileGE (c : Char) : List Char → List Char × List Char
  | [] => ([], [])
  | t :: rest =>
    if precedence c ≤ precedence t then
      let (out, st) := popWhileGE c rest
      (t :: out, st)
    else ([], t :: rest)

/-- On `)`: pop to the output until a `(` (which is discarded); an absent `(`
just empties the stack. -/
def popUntilParen : List Char → List Char × List Char
  | [] => ([], [])
  | t :: rest =>
    if t = '(' then ([], rest)
    else
      let (out, st) := popUntilParen rest
      (t :: out, st)

/-- The shunting-yard loop of `toPostfix`: operators pop-then-push by
precedence, `(` is stacked, `)` pops to the matching `(`, and any other
character goes straight to the output; at end of input the stack is flushed
top first. -/
def toPostfixGo : List Char → List Char → List Char
  | [], st => st
  | c :: rest, st =>
    if c = '.' ∨ c = '|' ∨ c = '*' then
      let (out, st') := popWhileGE c st
      out ++ toPostfixGo rest (c :: st')
    else if c = '(' then toPostfixGo rest ('(' :: st)
    else if c = ')' then
      let (out, st') := popUntilParen st
      out ++ toPostfixGo rest st'
    else c :: toPostfixGo rest st

/-- `toPostfix` from `src/regex_preprocessor.cpp`. -/
def toPostfix (s : String) : String :=
  ⟨toPostfixGo s.toList []⟩

/-! ## State arena and Thompson construction (`src/nfa_state.*`,
`src/thompsons_construction.cpp`)

A state's transition table (`std::map<char, std::vector<NFAState*>>` with
`push_back` appends) is modelled as a list of `(symbol, targets)` entries in
append order; the targets of a symbol are the concatenation of its entries.
The arena (`StateManager::stateStore`) is a list of nodes indexed by state id
(`create()` allocates ids in order). -/

/-- One state's transition table. -/
abbrev Node := List (Char × List Nat)

/-- `StateManager::stateStore`: all states of one compilation, id = index. -/
abbrev Arena := List Node

/-- All targets a node maps a symbol to (the vector `transitions[c]`). -/
def lookupTrans (nd : Node) (c : Char) : List Nat :=
  ((nd.filter (fun p => p.1 = c)).map (fun p => p.2)).flatten

/-- `transitions.count(c)` as a Bool: does the node have an entry for `c`? -/
def lookupHas (nd : Node) (c : Char) : Bool :=
  nd.any (fun p => p.1 = c)

/-- `StateManager::create()`: append a fresh state, returning the new arena
and the new state's id. -/
def stCreate (a : Arena) : Arena × Nat :=
  (a ++ [[]], a.length)

/-- `s->transitions[c].push_back(t)`: append target `t` for symbol `c` on
state `s`. -/
def pushTrans (a : Arena) (s : Nat) (c : Char) (t : Nat) : Arena :=
  a.set s ((a.getD s []) ++ [(c, [t])])

/-- An automaton fragment: start state id and final state ids
(`NFAFragment`). -/
structure Frag where
  start : Nat
  finals : List Nat
deriving DecidableEq, Repr

/-- `makeChar(c)`: `start --[c]--> end`. -/
def makeChar (a : Arena) (c : Char) : Arena × Frag :=
  let (a1, s) := stCreate a
  let (a2, e) := stCreate a1
  (pushTrans a2 s c e, ⟨s, [e]⟩)

/-- The loop `for (auto f : finals) f->transitions['E'].push_back(tgt)`. -/
def linkFinals (tgt : Nat) : Arena → List Nat → Arena
  | a, [] => a
  | a, f :: fs => linkFinals tgt (pushTrans a f 'E' tgt) fs

/-- `makeUnion(first, second)`: new start/end, epsilon from the new start to
both operand starts, epsilon from both operands' finals to the new end. -/
def makeUnion (a : Arena) (f1 f2 : Frag) : Arena × Frag :=
  let (a1, s) := stCreate a
  let (a2, e) := stCreate a1
  let a3 := pushTrans a2 s 'E' f1.start
  let a4 := pushTrans a3 s 'E' f2.start
  let a5 := linkFinals e a4 f1.finals
  let a6 := linkFinals e a5 f2.finals
  (a6, ⟨s, [e]⟩)

/-- `makeConcat(first, second)`: epsilon from every final of the first to the
start of the second; start = first's start, finals = second's finals. -/
def makeConcat (a : Arena) (f1 f2 : Frag) : Arena × Frag :=
  (linkFinals f2.start a f1.finals, ⟨f1.start, f2.finals⟩)

/-- The loop of `makeStar`: each operand final gets epsilon edges back to the
operand start and out to the new end, in that order. -/
def linkFinalsStar (loopTgt endTgt : Nat) : Arena → List Nat → Arena
  | a, [] => a
  | a, f :: fs =>
    linkFinalsStar loopTgt endTgt (pushTrans (pushTrans a f 'E' loopTgt) f 'E' endTgt) fs

/-- `makeStar(fragment)`: new start/end with epsilon to the operand start and
to the new end (zero repetitions); operand finals loop back and exit. -/
def makeStar (a : Arena) (f : Frag) : Arena × Frag :=
  let (a1, s) := stCreate a
  let (a2, e) := stCreate a1
  let a3 := pushTrans a2 s 'E' f.start
  let a4 := pushTrans a3 s 'E' e
  (linkFinalsStar f.start e a4 f.finals, ⟨s, [e]⟩)

/-- Outcome of `regexToNFA`: either a built fragment (with the arena the
construction produced) or a process exit — the C++ `exit(1)` after a
construction error message on `std::cerr`. -/
inductive BuildResult
  | ok (a : Arena) (f : Frag)
  | exitProcess (code : Nat) (msg : String)
deriving DecidableEq

/-- The stack loop of `regexToNFA`: `.` and `|` pop two fragments (exit on
underflow), `*` pops one (exit on underflow), any other character pushes a
`makeChar` fragment; at the end the stack must hold exactly one fragment
(exit on an empty stack or on leftovers). -/
def buildGo : List Char → List Frag → Arena → BuildResult
  | [], st, a =>
    match st with
    | [] => .exitProcess 1 "Error: Empty Regex"
    | [f] => .ok a f
    | _ => .exitProcess 1
        ("Error: NFA Construction failed. Stack size: " ++ toString st.length
          ++ " (Missing concatenation?)")
  | c :: rest, st, a =>
    if c = '.' then
      match st with
      | b :: a' :: st' =>
        let (ar, f) := makeConcat a a' b
        buildGo rest (f :: st') ar
      | _ => .exitProcess 1 "Error: Malformed Regex (Stack Underflow on .)"
    else if c = '|' then
      match st with
      | b :: a' :: st' =>
        let (ar, f) := makeUnion a a' b
        buildGo rest (f :: st') ar
      | _ => .exitProcess 1 "Error: Malformed Regex (Stack Underflow on |)"
    else if c = '*' then
      match st with
      | f1 :: st' =>
        let (ar, f) := makeStar a f1
        buildGo rest (f :: st') ar
      | [] => .exitProcess 1 "Error: Malformed Regex (Stack Underflow on *)"
    else
      let (ar, f) := makeChar a c
      buildGo rest (f :: st) ar

/-- `regexToNFA(postfix)` for one compilation (fresh arena, as after
`StateManager::clear()`). -/
def regexToNFA (s : String) : BuildResult :=
  buildGo s.toList [] []

/-- The arena of a successful build (`[]` on an exit, never used there). -/
def buildArena : BuildResult → Arena
  | .ok a _ => a
  | .exitProcess _ _ => []

/-- The fragment of a successful build. -/
def buildFrag : BuildResult → Frag
  | .ok _ f => f
  | .exitProcess _ _ => ⟨0, []⟩

/-! ## NFA simulator (`src/nfa_simulator.cpp`)

`std::set<int>` / `std::set<NFAState*>` are modelled as sorted duplicate-free
lists of ids.  `transitions[c]` on a `std::map` inserts an empty entry when
the key is absent; `mapIndex` models that, and every use in the simulator is
behind the `transitions.count(c)` guard exactly as in the C++ — the
frame theorems below show the arena therefore never changes.  The recursion
depth of the `getEpsilonClosure` DFS is bounded in C++ by the visited set;
here it takes fuel, shown sufficient at `arena length + 1`. -/

/-- Ordered insert into a sorted duplicate-free id list (`std::set`
insertion). -/
def insertId (x : Nat) : List Nat → List Nat
  | [] => [x]
  | y :: ys =>
    if x < y then x :: y :: ys
    else if x = y then y :: ys
    else y :: insertId x ys

/-- `std::map::operator[]`: return the entry for `c`, inserting an empty one
when absent. -/
def mapIndex (nd : Node) (c : Char) : Node × List Nat :=
  if lookupHas nd c then (nd, lookupTrans nd c) else (nd ++ [(c, [])], [])

/-- `getEpsilonClosure(s, visited, closure)` as the depth-first traversal
with an explicit work list (`pending`), the formulation §4.5 of the spec
prescribes for the same recursion: pop a state; skip it when visited;
otherwise mark it visited, add it to the closure, and push its epsilon
targets (read through the guarded `transitions['E']` access, threading the
arena) on the front of the work list, which reproduces the C++ recursion's
visiting order.  `none` is fuel exhaustion; one unit of fuel is one loop
iteration, and the termination theorem shows the `closureFuel` bound below
always suffices. -/
def epsGo (a : Arena) : Nat → List Nat → List Nat → List Nat →
    Option (Arena × List Nat × List Nat)
  | 0, _, _, _ => none
  | _ + 1, [], visited, closure => some (a, visited, closure)
  | fuel + 1, s :: pending, visited, closure =>
    if s ∈ visited then epsGo a fuel pending visited closure
    else
      let visited' := insertId s visited
      let closure' := insertId s closure
      let nd := a.getD s []
      if lookupHas nd 'E' then
        let (nd', ts) := mapIndex nd 'E'
        epsGo (a.set s nd') fuel (ts ++ pending) visited' closure'
      else epsGo a fuel pending visited' closure'

/-- Fuel sufficient for any `epsGo` run on `a` started from one state: one
iteration per work-list entry, of which there are at most one per epsilon
target plus one per state visit plus the initial state. -/
def closureFuel (a : Arena) : Nat :=
  2 + ((List.range a.length).map
    (fun s => 1 + (lookupTrans (a.getD s []) 'E').length)).sum

/-- The `for (auto next : s->transitions[c])` loop of a simulation step: each
target's epsilon closure is accumulated into the shared `nextStates`, with a
fresh visited set per target. -/
def targetsGo (aN : Nat) : Arena → List Nat → List Nat → Option (Arena × List Nat)
  | a, [], acc => some (a, acc)
  | a, t :: ts, acc =>
    match epsGo a aN [t] [] acc with
    | none => none
    | some (a', _, acc') => targetsGo aN a' ts acc'

/-- The `for (auto s : currentStates)` loop of a simulation step, also
returning the `(state, targets)` pairs the trace variant prints. -/
def simStepGo (aN : Nat) (c : Char) :
    Arena → List Nat → List Nat → List (Nat × List Nat) →
    Option (Arena × List Nat × List (Nat × List Nat))
  | a, [], acc, moves => some (a, acc, moves)
  | a, s :: ss, acc, moves =>
    let nd := a.getD s []
    if lookupHas nd c then
      let (nd', ts) := mapIndex nd c
      match targetsGo aN (a.set s nd') ts acc with
      | none => none
      | some (a', acc') => simStepGo aN c a' ss acc' (moves ++ [(s, ts)])
    else simStepGo aN c a ss acc moves

/-- The final accept check of `simulateNFA`: some current state is a final
state. -/
def finalCheck (finals cur : List Nat) : Bool :=
  cur.any (fun s => finals.any (fun f => f = s))

/-- The per-character loop of `simulateNFA`: step, reject immediately when the
next state set is empty, otherwise continue; at end of input, accept iff a
current state is final. -/
def simGoM (aN : Nat) (finals : List Nat) : Arena → List Nat → List Char →
    Arena × Option Bool
  | a, cur, [] => (a, some (finalCheck finals cur))
  | a, cur, c :: rest =>
    match simStepGo aN c a cur [] [] with
    | none => (a, none)
    | some (a', next, _) =>
      if next.isEmpty then (a', some false)
      else simGoM aN finals a' next rest

/-- `simulateNFA(nfa, input)` with the arena threaded through every transition
access; `.2 = none` would mean closure fuel ran out (shown impossible). -/
def simulateNFAM (a : Arena) (nfa : Frag) (input : String) : Arena × Option Bool :=
  let aN := closureFuel a
  match epsGo a aN [nfa.start] [] [] with
  | none => (a, none)
  | some (a', _, cur) => simGoM aN nfa.finals a' cur input.toList

/-- One structured entry of the diagnostic trace (`simulateNFAWithTrace`
formats these as text; the formatting itself carries no automaton state). -/
inductive TraceEntry
  | initial (states : List Nat)
  | step (pos : Nat) (c : Char) (moves : List (Nat × List Nat)) (after : List Nat)
  | dead
  | finalAccept
  | finalReject
deriving DecidableEq

/-- The per-character loop of `simulateNFAWithTrace`: same stepping as
`simGoM`, recording a step entry per character, a dead-state entry on an
empty next set (early return), and a final accept/reject entry. -/
def traceGoM (aN : Nat) (finals : List Nat) :
    Arena → List Nat → Nat → List Char → List TraceEntry →
    Arena × Option (List TraceEntry)
  | a, cur, _, [], tr =>
    (a, some (tr ++ [if finalCheck finals cur then .finalAccept else .finalReject]))
  | a, cur, pos, c :: rest, tr =>
    match simStepGo aN c a cur [] [] with
    | none => (a, none)
    | some (a', next, moves) =>
      if next.isEmpty then (a', some (tr ++ [.step pos c moves next, .dead]))
      else traceGoM aN finals a' next (pos + 1) rest (tr ++ [.step pos c moves next])

/-- `simulateNFAWithTrace(nfa, input)`: initial closure entry, then the traced
loop. -/
def simulateNFAWithTraceM (a : Arena) (nfa : Frag) (input : String) :
    Arena × Option (List TraceEntry) :=
  let aN := closureFuel a
  match epsGo a aN [nfa.start] [] [] with
  | none => (a, none)
  | some (a', _, cur) => traceGoM aN nfa.finals a' cur 0 input.toList [.initial cur]

/-! ## Adaptive PDA (`src/adaptive_pda.h`, `src/adaptive_pda.cpp`)

The constructor-built grammar, parsing table and affinity matrix are fixed
data; the member `adaptiveMap` is threaded explicitly.  Affinity scores are
rationals.  The `exit(1)` in `adaptiveRepair` on low affinity is the
`ParseResult.procExit` outcome. -/

/-- `struct Production`: left-hand nonterminal and right-hand symbol list. -/
structure Production where
  lhs : String
  rhs : List String
deriving DecidableEq

/-- The grammar built in `AdaptivePDA::AdaptivePDA()`:
`S -> A S T | G S C | .`. -/
def pdaGrammar : List Production :=
  [⟨"S", ["A", "S", "T"]⟩, ⟨"S", ["G", "S", "C"]⟩, ⟨"S", ["."]⟩]

/-- Find the value for a key in an association list (`std::map` lookup). -/
def assocFind {α : Type} (k : String) : List (String × α) → Option α
  | [] => none
  | (k', v) :: rest => if k' = k then some v else assocFind k rest

/-- The LL(1) parsing table built in the constructor:
`(S, A) -> 0`, `(S, G) -> 1`, `(S, .) -> 2`. -/
def parsingTable : List (String × List (String × Nat)) :=
  [("S", [("A", 0), ("G", 1), (".", 2)])]

/-- `parsingTable.find(top) != parsingTable.end()`: is the symbol a
nonterminal? -/
def tableHasNT (x : String) : Bool :=
  (assocFind x parsingTable).isSome

/-- The affinity matrix built in the constructor:
`(T, U) -> 0.95`, `(C, U) -> 0.60`, `(C, A) -> 0.05`. -/
def affinityMatrix : List (String × List (String × ℚ)) :=
  [("T", [("U", mkRat 95 100)]), ("C", [("U", mkRat 60 100), ("A", mkRat 5 100)])]

/-- Two-level map lookup (`m.count(k1) && m[k1].count(k2)` then
`m[k1][k2]`). -/
def lookup2 {α : Type} (m : List (String × List (String × α))) (k1 k2 : String) :
    Option α :=
  match assocFind k1 m with
  | none => none
  | some inner => assocFind k2 inner

/-- The parser's learned-equivalence map (`adaptiveMap`). -/
abbrev AMap := List (String × String)

/-- `adaptiveMap[actual] = required`: insert or overwrite. -/
def amapSet (k v : String) : AMap → AMap
  | [] => [(k, v)]
  | (k', v') :: rest => if k' = k then (k, v) :: rest else (k', v') :: amapSet k v rest

/-- Outcome of `AdaptivePDA::adaptiveRepair`: high-affinity substitution,
moderate-affinity (wobble) substitution with a warning, or the low-affinity
`exit(1)`. -/
inductive RepairResult
  | repairedHigh (m : AMap)
  | repairedWarn (m : AMap)
  | exited (score : ℚ)
deriving DecidableEq

/-- `adaptiveRepair(requiredToken, actualToken)`: look up the affinity score
(absent means `0.0`); above `0.8` record the substitution, above `0.5` record
it with a warning, otherwise `exit(1)`. -/
def adaptiveRepair (am : AMap) (requiredToken actualToken : String) : RepairResult :=
  let affinity := (lookup2 affinityMatrix requiredToken actualToken).getD 0
  if affinity > mkRat 8 10 then .repairedHigh (amapSet actualToken requiredToken am)
  else if affinity > mkRat 5 10 then .repairedWarn (amapSet actualToken requiredToken am)
  else .exited affinity

/-- How `AdaptivePDA::parse` came to stop: `STRUCTURE STABLE` accept;
`ERROR: Invalid Start of Structure` (no table entry); the unreachable
`Error: Unknown State` branch; the low-affinity `exit(1)` from
`adaptiveRepair` (with the triggering pair and score); or the `while` loop
running off an emptied stack.  Each result carries the adaptive map at that
point. -/
inductive ParseResult
  | stable (m : AMap)
  | invalidStart (m : AMap)
  | unknownState (m : AMap)
  | procExit (code : Nat) (required actual : String) (score : ℚ) (m : AMap)
  | stackEmptied (m : AMap)
deriving DecidableEq

/-- The loop state of `AdaptivePDA::parse`: the symbol stack (top first), the
read pointer, and the adaptive map. -/
structure PCfg where
  stack : List String
  ptr : Nat
  amap : AMap
deriving DecidableEq

/-- One iteration of the `parse` loop either stops with a result or steps to
a next configuration. -/
inductive PStep
  | done (r : ParseResult)
  | next (c : PCfg)
deriving DecidableEq

/-- One iteration of the `while (!s.empty())` loop of `AdaptivePDA::parse`
over the token list `tks` (already ending in `"$"`): accept when top and
lookahead are both `"$"`; a terminal top matches exactly or via the adaptive
map (pop and advance) or goes through `adaptiveRepair` (which only updates
the map — the re-examination happens on the next iteration); a nonterminal
top expands via the parsing table, pushing the production right-hand side in
reverse, or stops on a missing entry. -/
def parseStep (tks : List String) (cfg : PCfg) : PStep :=
  match cfg.stack with
  | [] => .done (.stackEmptied cfg.amap)
  | top :: rest =>
    let lookahead := tks.getD cfg.ptr ""
    if top = "$" ∧ lookahead = "$" then .done (.stable cfg.amap)
    else if ¬ tableHasNT top then
      if top = lookahead then .next ⟨rest, cfg.ptr + 1, cfg.amap⟩
      else if assocFind lookahead cfg.amap = some top then
        .next ⟨rest, cfg.ptr + 1, cfg.amap⟩
      else
        match adaptiveRepair cfg.amap top lookahead with
        | .repairedHigh m => .next ⟨cfg.stack, cfg.ptr, m⟩
        | .repairedWarn m => .next ⟨cfg.stack, cfg.ptr, m⟩
        | .exited score => .done (.procExit 1 top lookahead score cfg.amap)
    else if tableHasNT top then
      match lookup2 parsingTable top lookahead with
      | none => .done (.invalidStart cfg.amap)
      | some ruleIndex =>
        let p := pdaGrammar.getD ruleIndex ⟨"", []⟩
        .next ⟨p.rhs ++ rest, cfg.ptr, cfg.amap⟩
    else .done (.unknownState cfg.amap)

/-- Run the parse loop for at most `fuel` iterations (`none` = fuel ran out;
the termination theorem shows the bound used by `parseTokens` suffices). -/
def parseRun (tks : List String) : Nat → PCfg → Option ParseResult
  | 0, _ => none
  | fuel + 1, cfg =>
    match parseStep tks cfg with
    | .done r => some r
    | .next c => parseRun tks fuel c

/-- `AdaptivePDA::parse(tokens)` on a freshly constructed parser: push `$`
and the start symbol, append `$` to the tokens, and loop. -/
def parseTokens (tokens : List String) : Option ParseResult :=
  parseRun (tokens ++ ["$"]) (4 * tokens.length + 8) ⟨["S", "$"], 0, []⟩

/-! ## Reachability (for the fragment invariant of §3 of the spec) -/

/-- One transition of the automaton: some symbol maps `s` to `t`. -/
def EdgeStep (a : Arena) (s t : Nat) : Prop :=
  ∃ c, t ∈ lookupTrans (a.getD s []) c

/-- `t` is reachable from `s` via zero or more transitions. -/
def Reach (a : Arena) : Nat → Nat → Prop :=
  Relation.ReflTransGen (EdgeStep a)

/-- Arena extension: every transition of `a` is still present in `b`.
All builder operations only append states and append transition entries, so
they extend the arena in this sense. -/
def ArenaLE (a b : Arena) : Prop :=
  ∀ s c t, t ∈ lookupTrans (a.getD s []) c → t ∈ lookupTrans (b.getD s []) c

/-- The invariant every fragment on the builder's work stack satisfies: its
states are inside the arena, it has at least one final state, and every final
state is reachable from its start. -/
def FragWF (a : Arena) (f : Frag) : Prop :=
  f.start < a.length ∧ (∀ t ∈ f.finals, t < a.length) ∧ f.finals ≠ [] ∧
    ∀ t ∈ f.finals, Reach a f.start t

/-! ## Termination measures

Decreasing quantities for the two dynamically-bounded loops: the
epsilon-closure work-list traversal and the parser's `while` loop. -/

/-- The number of epsilon targets of a state. -/
def epsDeg (a : Arena) (s : Nat) : Nat :=
  (lookupTrans (a.getD s []) 'E').length

/-- Work remaining for `epsGo`: the pending list, plus, for every in-range
state not yet visited, one visit and one push per epsilon target. -/
def epsMeasure (a : Arena) (pending visited : List Nat) : Nat :=
  pending.length +
    ((Finset.range a.length).filter (fun s => s ∉ visited)).sum
      (fun s => 1 + epsDeg a s)

/-- Work remaining for the parser loop: the unread suffix dominates; of two
configurations with the same read pointer, a nonterminal top is two units
heavier than a terminal one (an expansion puts a terminal on top without
reading), and a missing adaptive-map entry for the current pair is one unit
heavier (a repair records it without reading). -/
def parseMeasure (tks : List String) (cfg : PCfg) : Nat :=
  4 * (tks.length - cfg.ptr) +
    (match cfg.stack with
     | [] => 0
     | top :: _ =>
       (if tableHasNT top then 2 else 0) +
         (if assocFind (tks.getD cfg.ptr "") cfg.amap = some top then 0 else 1))

/-! ## Theorems -/

/-! ### C1 — failure propagation (error handling)

The spec requires every core failure to be returned as an explicit
result/error value, never terminating the hosting process.  The code calls
`exit(1)` both on construction errors in `regexToNFA`
(`src/thompsons_construction.cpp` lines 63–106) and on a low-affinity
rejection in `AdaptivePDA::adaptiveRepair` (`src/adaptive_pda.cpp` line 84);
the spec's own design notes (§9) flag this fatal-exit behaviour as the thing
to restate.  The theorem evaluates both failing paths of the embedding to the
process-exit outcome. -/

/-- C1: the code aborts the process on these failures instead of returning an
error value — the postfix `"."` underflows the construction stack and reaches
`exit(1)`, and the token sequence `A G . C A` reaches the low-affinity
`exit(1)` in `adaptiveRepair`. -/
theorem c1_failures_exit_the_process :
    regexToNFA "." = .exitProcess 1 "Error: Malformed Regex (Stack Underflow on .)" ∧
    parseTokens ["A", "G", ".", "C", "A"] = some (.procExit 1 "T" "A" 0 []) := by
  decide

/-! ### C2 — adaptive parser on the two spec sequences -/

/-- C2 counterexample: parsing `A G . C A` does not stop at a low-affinity
`(C, A)` check — the fourth token `C` matches the stacked `C` exactly. -/
theorem c2_counterexample_not_CA_check :
    parseTokens ["A", "G", ".", "C", "A"] ≠
      some (.procExit 1 "C" "A" (mkRat 5 100) []) := by
  decide

/-- C2 amended: `A G . C U` is accepted with `U -> T` recorded in the
adaptive map; `A G . C A` is rejected, but at the `(T, A)` check with
affinity score `0` (no matrix entry), the final `A` being checked against
the expected `T`. -/
theorem c2_amended_parse_results :
    parseTokens ["A", "G", ".", "C", "U"] = some (.stable [("U", "T")]) ∧
    parseTokens ["A", "G", ".", "C", "A"] = some (.procExit 1 "T" "A" 0 []) := by
  decide

/-! ### C3 — full lexical pipeline on `(A|G)+` -/

/-- C3: preprocessing `(A|G)+`, converting to postfix, building the
automaton and simulating accepts `AGAGA` and rejects `AGAGX`. -/
theorem c3_pipeline_AGAGA_AGAGX :
    (simulateNFAM (buildArena (regexToNFA ( toPostfix (preprocessRegex "(A|G)+"))))
      (buildFrag (regexToNFA ( toPostfix (preprocessRegex "(A|G)+")))) "AGAGA").2
      = some true ∧
    (simulateNFAM (buildArena (regexToNFA ( toPostfix (preprocessRegex "(A|G)+"))))
      (buildFrag (regexToNFA ( toPostfix (preprocessRegex "(A|G)+")))) "AGAGX").2
      = some false := by
  constructor <;> rfl

/-! ### C4 — `preprocess("A+")` and the postfix of `AA*` -/

/-- C4 counterexample: `preprocess("A+")` is `"A.A*"` — PASS 2 inserts the
explicit concatenation dot — not `"AA*"`. -/
theorem c4_counterexample_preprocess_Aplus :
    preprocessRegex "A+" ≠ "AA*" := by
  decide

/-- C4 amended: `preprocess("A+")` is exactly `"A.A*"` (the `+` expansion
`AA*` with the explicit concatenation dot of PASS 2), and `toPostfix` on the
dotless string `"AA*"` is exactly `"AA*"`. -/
theorem c4_amended_preprocess_and_postfix :
    preprocessRegex "A+" = "A.A*" ∧ toPostfix "AA*" = "AA*" := by
  decide

/-! ### C5 — idempotence of preprocessing -/

/-- C5 counterexample: on the literal-only pattern `AB`, one application of
`preprocess` gives `A.B` but a second gives `A...B` — PASS 2 re-inserts
concatenation dots around the dot of the first pass. -/
theorem c5_counterexample_not_idempotent :
    preprocessRegex (preprocessRegex "AB") ≠ preprocessRegex "AB" := by
  decide

/-- A list's last element is a member. -/
theorem mem_of_getLast?_eq {l : List Char} {a : Char} (h : l.getLast? = some a) :
    a ∈ l := by
  have hm : a ∈ l.getLast? := by simp [h, Option.mem_def]
  obtain ⟨h1, h2⟩ := List.mem_getLast?_eq_getLast hm
  exact h2 ▸ List.getLast_mem h1

/-- PASS 1 never emits a `+`: its output characters are copied non-`+` input
characters, characters already in the accumulator (the duplicated operand or
group), and `*`. -/
theorem plusExpand_no_plus :
    ∀ (l e : List Char), '+' ∉ e → '+' ∉ plusExpand l e := by
  intro l
  induction l with
  | nil => intro e he; simpa [plusExpand] using he
  | cons c rest ih =>
    intro e he
    by_cases hc : c = '+'
    · subst hc
      rw [plusExpand, if_pos rfl]
      cases hLast : e.getLast? with
      | none => exact ih e he
      | some prev =>
        dsimp only
        by_cases hp : prev = ')'
        · rw [if_pos hp]
          by_cases hlen : e.length < 2
          · rw [if_pos hlen]; exact ih e he
          · rw [if_neg hlen]
            cases hscan : scanGroup e (e.length - 2) 1 with
            | none => exact ih e he
            | some j =>
              refine ih _ ?_
              intro hmem
              rcases List.mem_append.1 hmem with hmem' | hstar
              · rcases List.mem_append.1 hmem' with h1 | h2
                · exact he h1
                · exact he (List.mem_of_mem_drop h2)
              · exact absurd (List.mem_singleton.1 hstar) (by decide)
        · rw [if_neg hp]
          refine ih _ ?_
          intro hmem
          rcases List.mem_append.1 hmem with h1 | h2
          · exact he h1
          · simp only [List.mem_cons, List.not_mem_nil, or_false] at h2
            rcases h2 with h2 | h2
            · exact he (h2 ▸ mem_of_getLast?_eq hLast)
            · exact absurd h2 (by decide)
    · rw [plusExpand, if_neg hc]
      refine ih _ ?_
      intro hmem
      rcases List.mem_append.1 hmem with h1 | h2
      · exact he h1
      · exact hc (List.mem_singleton.1 h2).symm

/-- PASS 2 only interleaves dots: every output character is an input
character or `.`. -/
theorem dotInsert_mem :
    ∀ (l : List Char) (x : Char), x ∈ dotInsert l → x ∈ l ∨ x = '.' := by
  intro l
  induction l using dotInsert.induct with
  | case1 => intro x hx; simp [dotInsert] at hx
  | case2 c =>
    intro x hx
    rw [dotInsert] at hx
    exact Or.inl hx
  | case3 c next rest hcond ih =>
    intro x hx
    rw [dotInsert, if_pos hcond] at hx
    simp only [List.mem_cons] at hx
    rcases hx with rfl | rfl | hx
    · exact Or.inl (List.mem_cons_self _ _)
    · exact Or.inr rfl
    · rcases ih x hx with h | h
      · exact Or.inl (List.mem_cons_of_mem _ h)
      · exact Or.inr h
  | case4 c next rest hcond ih =>
    intro x hx
    rw [dotInsert, if_neg hcond] at hx
    simp only [List.mem_cons] at hx
    rcases hx with rfl | hx
    · exact Or.inl (List.mem_cons_self _ _)
    · rcases ih x hx with h | h
      · exact Or.inl (List.mem_cons_of_mem _ h)
      · exact Or.inr h

/-- C5 amended: `preprocess` is not idempotent (see the counterexample — dot
insertion grows under re-application), but the `+`-induced growth does
stabilize after the first application: the output of `preprocess` never
contains a `+`, so a second application performs no quantifier expansion. -/
theorem c5_amended_no_plus_in_output (s : String) :
    '+' ∉ (preprocessRegex s).toList := by
  intro hmem
  have hm : '+' ∈ dotInsert (plusExpand (classExpand s.toList) []) := hmem
  rcases dotInsert_mem _ _ hm with h | h
  · exact plusExpand_no_plus _ [] (by simp) h
  · exact absurd h (by decide)

/-- C5 witness: the no-`+` theorem applied to the concrete pattern
`(A|G)+`. -/
theorem c5_witness :
    '+' ∉ (preprocessRegex "(A|G)+").toList :=
  c5_amended_no_plus_in_output "(A|G)+"

/-! ### C6 — parentheses in the postfix output -/

/-- C6 counterexample: on the unbalanced input `(A`, the end-of-input flush
emits the unmatched `(` left on the operator stack, so the output `A(`
contains a parenthesis. -/
theorem c6_counterexample_unmatched_lparen :
    '(' ∈ ( toPostfix "(A").toList := by
  decide

/-- Everything `popWhileGE` returns — popped output and remaining stack —
was on the stack. -/
theorem popWhileGE_subset (c : Char) :
    ∀ (st : List Char) (x : Char),
      (x ∈ (popWhileGE c st).1 → x ∈ st) ∧ (x ∈ (popWhileGE c st).2 → x ∈ st) := by
  intro st
  induction st with
  | nil => intro x; constructor <;> (intro h; simp [popWhileGE] at h)
  | cons t rest ih =>
    intro x
    rcases hpw : popWhileGE c rest with ⟨out, st2⟩
    constructor <;> intro h <;> rw [popWhileGE] at h <;> by_cases hc : precedence c ≤ precedence t
    · rw [if_pos hc, hpw] at h
      rcases List.mem_cons.1 h with rfl | h'
      · exact List.mem_cons_self _ _
      · have := (ih x).1; rw [hpw] at this
        exact List.mem_cons_of_mem _ (this h')
    · rw [if_neg hc] at h
      exact absurd h (List.not_mem_nil x)
    · rw [if_pos hc, hpw] at h
      have := (ih x).2; rw [hpw] at this
      exact List.mem_cons_of_mem _ (this h)
    · rw [if_neg hc] at h
      exact h

/-- Everything `popUntilParen` returns was on the stack. -/
theorem popUntilParen_subset :
    ∀ (st : List Char) (x : Char),
      (x ∈ (popUntilParen st).1 → x ∈ st) ∧ (x ∈ (popUntilParen st).2 → x ∈ st) := by
  intro st
  induction st with
  | nil => intro x; constructor <;> (intro h; simp [popUntilParen] at h)
  | cons t rest ih =>
    intro x
    rcases hpu : popUntilParen rest with ⟨out, st2⟩
    constructor <;> intro h <;> rw [popUntilParen] at h <;> by_cases ht : t = '('
    · rw [if_pos ht] at h
      exact absurd h (List.not_mem_nil x)
    · rw [if_neg ht, hpu] at h
      rcases List.mem_cons.1 h with rfl | h'
      · exact List.mem_cons_self _ _
      · have := (ih x).1; rw [hpu] at this
        exact List.mem_cons_of_mem _ (this h')
    · rw [if_pos ht] at h
      exact List.mem_cons_of_mem _ h
    · rw [if_neg ht, hpu] at h
      have := (ih x).2; rw [hpu] at this
      exact List.mem_cons_of_mem _ (this h)

/-- The shunting-yard loop never emits `)`: a `)` is never pushed on the
operator stack, and output characters are either popped stack entries or
input characters from the literal branch (which excludes `)`). -/
theorem toPostfixGo_no_rparen :
    ∀ (inp st : List Char), ')' ∉ st → ')' ∉ toPostfixGo inp st := by
  intro inp
  induction inp with
  | nil => intro st hst; simpa [toPostfixGo] using hst
  | cons c rest ih =>
    intro st hst hmem
    rw [toPostfixGo] at hmem
    by_cases h1 : c = '.' ∨ c = '|' ∨ c = '*'
    · rw [if_pos h1] at hmem
      rcases hpw : popWhileGE c st with ⟨out, st2⟩
      rw [hpw] at hmem
      rcases List.mem_append.1 hmem with h | h
      · have := (popWhileGE_subset c st ')').1; rw [hpw] at this
        exact hst (this h)
      · refine ih (c :: st2) ?_ h
        intro hc
        rcases List.mem_cons.1 hc with hc' | hc'
        · rcases h1 with rfl | rfl | rfl <;> exact absurd hc'.symm (by decide)
        · have := (popWhileGE_subset c st ')').2; rw [hpw] at this
          exact hst (this hc')
    · rw [if_neg h1] at hmem
      by_cases h2 : c = '('
      · rw [if_pos h2] at hmem
        refine ih ('(' :: st) ?_ hmem
        intro hc
        rcases List.mem_cons.1 hc with hc' | hc'
        · exact absurd hc'.symm (by decide)
        · exact hst hc'
      · rw [if_neg h2] at hmem
        by_cases h3 : c = ')'
        · rw [if_pos h3] at hmem
          rcases hpu : popUntilParen st with ⟨out, st2⟩
          rw [hpu] at hmem
          rcases List.mem_append.1 hmem with h | h
          · have := (popUntilParen_subset st ')').1; rw [hpu] at this
            exact hst (this h)
          · refine ih st2 ?_ h
            intro hc
            have := (popUntilParen_subset st ')').2; rw [hpu] at this
            exact hst (this hc)
        · rw [if_neg h3] at hmem
          rcases List.mem_cons.1 hmem with hc' | hc'
          · exact h3 hc'.symm
          · exact ih st hst hc'

/-- When the input has no `(`, none is ever pushed, so none is ever
emitted. -/
theorem toPostfixGo_no_lparen :
    ∀ (inp st : List Char), '(' ∉ st → '(' ∉ inp → '(' ∉ toPostfixGo inp st := by
  intro inp
  induction inp with
  | nil => intro st hst _; simpa [toPostfixGo] using hst
  | cons c rest ih =>
    intro st hst hinp hmem
    have hcne : c ≠ '(' := fun h => hinp (h ▸ List.mem_cons_self _ _)
    have hrest : '(' ∉ rest := fun h => hinp (List.mem_cons_of_mem _ h)
    rw [toPostfixGo] at hmem
    by_cases h1 : c = '.' ∨ c = '|' ∨ c = '*'
    · rw [if_pos h1] at hmem
      rcases hpw : popWhileGE c st with ⟨out, st2⟩
      rw [hpw] at hmem
      rcases List.mem_append.1 hmem with h | h
      · have := (popWhileGE_subset c st '(').1; rw [hpw] at this
        exact hst (this h)
      · refine ih (c :: st2) ?_ hrest h
        intro hc
        rcases List.mem_cons.1 hc with hc' | hc'
        · exact hcne hc'.symm
        · have := (popWhileGE_subset c st '(').2; rw [hpw] at this
          exact hst (this hc')
    · rw [if_neg h1] at hmem
      by_cases h2 : c = '('
      · exact hcne h2
      · rw [if_neg h2] at hmem
        by_cases h3 : c = ')'
        · rw [if_pos h3] at hmem
          rcases hpu : popUntilParen st with ⟨out, st2⟩
          rw [hpu] at hmem
          rcases List.mem_append.1 hmem with h | h
          · have := (popUntilParen_subset st '(').1; rw [hpu] at this
            exact hst (this h)
          · refine ih st2 ?_ hrest h
            intro hc
            have := (popUntilParen_subset st '(').2; rw [hpu] at this
            exact hst (this hc)
        · rw [if_neg h3] at hmem
          rcases List.mem_cons.1 hmem with hc' | hc'
          · exact hcne hc'.symm
          · exact ih st hst hrest hc'

/-- C6 amended: for every input string the output of `toPostfix` contains
no `)` (unmatched `)` is silently dropped); freedom from `(` holds only when
the input cannot leave an unmatched `(` on the stack — in particular whenever
the input contains no `(` at all — because the end-of-input flush emits any
stacked `(` (see the counterexample). -/
theorem c6_amended_paren_free (s : String) :
    ')' ∉ ( toPostfix s).toList ∧
      ('(' ∉ s.toList → '(' ∉ ( toPostfix s).toList) :=
  ⟨toPostfixGo_no_rparen s.toList [] (by simp),
   fun h => toPostfixGo_no_lparen s.toList [] (by simp) h⟩

/-- C6 witness: the amended theorem at the parenthesis-free input `A|B*`. -/
theorem c6_witness :
    ')' ∉ ( toPostfix "A|B*").toList ∧ '(' ∉ ( toPostfix "A|B*").toList :=
  ⟨(c6_amended_paren_free "A|B*").1, (c6_amended_paren_free "A|B*").2 (by decide)⟩

/-! ### C7 — the automaton of `A*` accepts exactly the all-`A` sequences of
every length (the claim: it accepts the empty sequence and every all-`A`
sequence) -/

/-- From the stable state set `[0, 1, 3]` of the `A*` automaton, any number
of further `A`s keeps the set at `[0, 1, 3]`, which contains the final
state `3`. -/
theorem simGoM_star_loop (n : Nat) :
    simGoM 10 [3]
      [[('A', [1])], [('E', [0]), ('E', [3])], [('E', [0]), ('E', [3])], []]
      [0, 1, 3] (List.replicate n 'A')
      = ([[('A', [1])], [('E', [0]), ('E', [3])], [('E', [0]), ('E', [3])], []],
         some true) := by
  induction n with
  | zero => rfl
  | succ n ih =>
    rw [List.replicate_succ]
    exact ih

/-- C7: the automaton built from pattern `A*` by the full pipeline accepts
`A^n` for every `n`, including the empty input at `n = 0`. -/
theorem c7_star_accepts_all_A (n : Nat) :
    (simulateNFAM (buildArena (regexToNFA ( toPostfix (preprocessRegex "A*"))))
      (buildFrag (regexToNFA ( toPostfix (preprocessRegex "A*"))))
      (String.mk (List.replicate n 'A'))).2 = some true := by
  cases n with
  | zero => rfl
  | succ n =>
    show (simGoM 10 [3]
      [[('A', [1])], [('E', [0]), ('E', [3])], [('E', [0]), ('E', [3])], []]
      [0, 1, 3] (List.replicate n 'A')).2 = some true
    rw [simGoM_star_loop n]

/-! ### C8 — termination of the closure traversal and the parser loop -/

/-- `insertId` is set insertion: membership in the result is equality or
prior membership. -/
theorem mem_insertId {x s : Nat} : ∀ {v : List Nat}, x ∈ insertId s v ↔ x = s ∨ x ∈ v := by
  intro v
  induction v with
  | nil => simp [insertId]
  | cons y ys ih =>
    rw [insertId]
    by_cases h1 : s < y
    · rw [if_pos h1]; simp [or_comm, or_assoc, or_left_comm]
    · rw [if_neg h1]
      by_cases h2 : s = y
      · subst h2; rw [if_pos rfl]; simp
      · rw [if_neg h2]; simp [ih]; tauto

/-- Writing a state's own transition table back is a no-op. -/
theorem set_getD_self : ∀ (a : Arena) (s : Nat), a.set s (a.getD s []) = a := by
  intro a
  induction a with
  | nil => intro s; rfl
  | cons nd rest ih =>
    intro s
    cases s with
    | zero => simp [List.getD]
    | succ s => simp [List.getD] at ih ⊢; exact ih s

/-- A state with an epsilon entry is inside the arena. -/
theorem lt_length_of_lookupHas {a : Arena} {s : Nat} {c : Char}
    (h : lookupHas (a.getD s []) c = true) : s < a.length := by
  by_contra hge
  rw [List.getD_eq_default _ _ (Nat.le_of_not_lt hge)] at h
  simp [lookupHas] at h

/-- The closure step on a visited head just pops it. -/
theorem epsGo_cons_visited {a : Arena} {fuel s : Nat} {pending visited closure : List Nat}
    (h : s ∈ visited) :
    epsGo a (fuel + 1) (s :: pending) visited closure =
      epsGo a fuel pending visited closure := by
  simp [epsGo, h]

/-- The closure step on an unvisited head with epsilon entries marks it and
pushes its targets; the guarded `transitions['E']` access leaves the arena
unchanged. -/
theorem epsGo_cons_unvisited_hasE {a : Arena} {fuel s : Nat}
    {pending visited closure : List Nat}
    (h : s ∉ visited) (hE : lookupHas (a.getD s []) 'E' = true) :
    epsGo a (fuel + 1) (s :: pending) visited closure =
      epsGo a fuel (lookupTrans (a.getD s []) 'E' ++ pending)
        (insertId s visited) (insertId s closure) := by
  rw [epsGo]
  rw [if_neg h]
  simp only [mapIndex, hE, if_pos, if_true, set_getD_self]

/-- The closure step on an unvisited head without epsilon entries just marks
it. -/
theorem epsGo_cons_unvisited_noE {a : Arena} {fuel s : Nat}
    {pending visited closure : List Nat}
    (h : s ∉ visited) (hE : lookupHas (a.getD s []) 'E' = false) :
    epsGo a (fuel + 1) (s :: pending) visited closure =
      epsGo a fuel pending (insertId s visited) (insertId s closure) := by
  rw [epsGo]
  rw [if_neg h]
  simp only [hE, Bool.false_eq_true, if_false]

/-- Marking a state can only shrink the unvisited sum. -/
theorem epsSum_insert_le (a : Arena) (s : Nat) (visited : List Nat) :
    ((Finset.range a.length).filter (fun x => x ∉ insertId s visited)).sum
        (fun x => 1 + epsDeg a x) ≤
      ((Finset.range a.length).filter (fun x => x ∉ visited)).sum
        (fun x => 1 + epsDeg a x) := by
  refine Finset.sum_le_sum_of_subset ?_
  intro x hx
  simp only [Finset.mem_filter, Finset.mem_range] at hx ⊢
  exact ⟨hx.1, fun hv => hx.2 (mem_insertId.2 (Or.inr hv))⟩

/-- Marking an unvisited in-range state removes exactly its own term from
the unvisited sum. -/
theorem epsSum_insert_eq {a : Arena} {s : Nat} {visited : List Nat}
    (hs : s < a.length) (hv : s ∉ visited) :
    ((Finset.range a.length).filter (fun x => x ∉ visited)).sum
        (fun x => 1 + epsDeg a x) =
      (1 + epsDeg a s) +
        ((Finset.range a.length).filter (fun x => x ∉ insertId s visited)).sum
          (fun x => 1 + epsDeg a x) := by
  have hset : (Finset.range a.length).filter (fun x => x ∉ insertId s visited) =
      ((Finset.range a.length).filter (fun x => x ∉ visited)).erase s := by
    ext x
    simp only [Finset.mem_filter, Finset.mem_range, Finset.mem_erase, mem_insertId]
    constructor
    · rintro ⟨hx, hni⟩
      exact ⟨fun he => hni (Or.inl he), hx, fun hm => hni (Or.inr hm)⟩
    · rintro ⟨hne, hx, hni⟩
      exact ⟨hx, fun hm => hm.elim hne hni⟩
  rw [hset]
  exact (Finset.add_sum_erase _ _ (by simp [Finset.mem_filter, hs, hv])).symm

/-- Fuel exceeding the work measure is enough for the closure traversal to
finish. -/
theorem epsGo_isSome (a : Arena) :
    ∀ (fuel : Nat) (pending visited closure : List Nat),
      epsMeasure a pending visited < fuel →
      (epsGo a fuel pending visited closure).isSome = true := by
  intro fuel
  induction fuel with
  | zero => intro pending visited closure h; exact absurd h (Nat.not_lt_zero _)
  | succ fuel ih =>
    intro pending visited closure h
    cases pending with
    | nil => rw [epsGo]; rfl
    | cons s pending =>
      have hmeas : epsMeasure a (s :: pending) visited =
          (epsMeasure a pending visited) + 1 := by
        simp [epsMeasure, List.length_cons]; ring
      by_cases hv : s ∈ visited
      · rw [epsGo_cons_visited hv]
        exact ih pending visited closure (by omega)
      · by_cases hE : lookupHas (a.getD s []) 'E' = true
        · rw [epsGo_cons_unvisited_hasE hv hE]
          refine ih _ _ _ ?_
          have hs : s < a.length := lt_length_of_lookupHas hE
          have hsum := epsSum_insert_eq hs hv
          have hlen : (lookupTrans (a.getD s []) 'E' ++ pending).length =
              epsDeg a s + pending.length := by
            simp [epsDeg]
          simp only [epsMeasure] at h hmeas ⊢
          rw [hlen]
          omega
        · rw [epsGo_cons_unvisited_noE hv (Bool.not_eq_true _ ▸ hE)]
          refine ih _ _ _ ?_
          have hle := epsSum_insert_le a s visited
          simp only [epsMeasure] at h hmeas ⊢
          omega

/-- Looking up the key just set by `amapSet` yields the new value. -/
theorem assocFind_amapSet_self (k v : String) :
    ∀ am : AMap, assocFind k (amapSet k v am) = some v := by
  intro am
  induction am with
  | nil => simp [amapSet, assocFind]
  | cons p rest ih =>
    obtain ⟨k', v'⟩ := p
    rw [amapSet]
    by_cases h : k' = k
    · rw [if_pos h]; simp [assocFind]
    · rw [if_neg h]; rw [assocFind, if_neg h]; exact ih

/-- `amapSet` leaves other keys alone. -/
theorem assocFind_amapSet_other {k k2 : String} (v : String) (hne : k2 ≠ k) :
    ∀ am : AMap, assocFind k2 (amapSet k v am) = assocFind k2 am := by
  intro am
  induction am with
  | nil => simp [amapSet, assocFind, Ne.symm hne]
  | cons p rest ih =>
    obtain ⟨k', v'⟩ := p
    rw [amapSet]
    by_cases h : k' = k
    · rw [if_pos h, h]
      rw [assocFind, assocFind, if_neg (Ne.symm hne), if_neg (Ne.symm hne)]
    · rw [if_neg h]
      rw [assocFind, assocFind]
      by_cases h2 : k' = k2
      · rw [if_pos h2, if_pos h2]
      · rw [if_neg h2, if_neg h2]; exact ih

/-- No token has any affinity with the end marker. -/
theorem affinity_dollar (t : String) : lookup2 affinityMatrix t "$" = none := by
  rw [lookup2]
  rcases haf : assocFind t affinityMatrix with _ | inner
  · rfl
  · dsimp only
    rw [affinityMatrix, assocFind] at haf
    by_cases h1 : "T" = t
    · rw [if_pos h1] at haf
      obtain rfl := Option.some.inj haf
      rfl
    · rw [if_neg h1, assocFind] at haf
      by_cases h2 : "C" = t
      · rw [if_pos h2] at haf
        obtain rfl := Option.some.inj haf
        rfl
      · rw [if_neg h2, assocFind] at haf
        exact absurd haf (by simp)

/-- A repair demanded at the end marker always takes the low-affinity
`exit(1)` branch with score `0`. -/
theorem adaptiveRepair_dollar (am : AMap) (top : String) :
    adaptiveRepair am top "$" = .exited 0 := by
  rw [adaptiveRepair, affinity_dollar]
  norm_num

/-- The only parsing-table hits are `(S, A) -> 0`, `(S, G) -> 1` and
`(S, .) -> 2`. -/
theorem lookup2_parsingTable_cases {top la : String} {idx : Nat}
    (h : lookup2 parsingTable top la = some idx) :
    top = "S" ∧ ((la = "A" ∧ idx = 0) ∨ (la = "G" ∧ idx = 1) ∨ (la = "." ∧ idx = 2)) := by
  rw [lookup2, parsingTable] at h
  rw [assocFind] at h
  by_cases h1 : "S" = top
  · rw [if_pos h1] at h
    dsimp only at h
    refine ⟨h1.symm, ?_⟩
    rw [assocFind] at h
    by_cases hA : "A" = la
    · rw [if_pos hA] at h
      exact Or.inl ⟨hA.symm, (Option.some.inj h).symm⟩
    · rw [if_neg hA, assocFind] at h
      by_cases hG : "G" = la
      · rw [if_pos hG] at h
        exact Or.inr (Or.inl ⟨hG.symm, (Option.some.inj h).symm⟩)
      · rw [if_neg hG, assocFind] at h
        by_cases hD : "." = la
        · rw [if_pos hD] at h
          exact Or.inr (Or.inr ⟨hD.symm, (Option.some.inj h).symm⟩)
        · rw [if_neg hD, assocFind] at h
          exact absurd h (by simp)
  · rw [if_neg h1, assocFind] at h
    dsimp only at h
    exact absurd h (by simp)

/-- The per-configuration part of `parseMeasure` beyond the reading term is
at most 3. -/
theorem parseMeasure_le (tks : List String) (cfg : PCfg) :
    parseMeasure tks cfg ≤ 4 * (tks.length - cfg.ptr) + 3 := by
  obtain ⟨stack, ptr, amap⟩ := cfg
  rw [parseMeasure]
  cases stack with
  | nil => dsimp only; omega
  | cons top rest => dsimp only; split_ifs <;> omega

/-- The reading term bounds `parseMeasure` from below. -/
theorem parseMeasure_ge (tks : List String) (cfg : PCfg) :
    4 * (tks.length - cfg.ptr) ≤ parseMeasure tks cfg := by
  obtain ⟨stack, ptr, amap⟩ := cfg
  rw [parseMeasure]
  cases stack with
  | nil => dsimp only; omega
  | cons top rest => dsimp only; split_ifs <;> omega

/-- One parser step that continues preserves the loop invariant (read pointer
in range, no learned equivalence keyed by the end marker) and strictly
decreases `parseMeasure`. -/
theorem parseStep_next {tks : List String}
    (hlast : tks.getD (tks.length - 1) "" = "$")
    {cfg c' : PCfg}
    (hstep : parseStep tks cfg = .next c')
    (hptr : cfg.ptr < tks.length)
    (hdol : assocFind "$" cfg.amap = none) :
    c'.ptr < tks.length ∧ assocFind "$" c'.amap = none ∧
      parseMeasure tks c' < parseMeasure tks cfg := by
  obtain ⟨stack, ptr, amap⟩ := cfg
  dsimp only at hptr hdol
  cases stack with
  | nil => rw [parseStep] at hstep; exact absurd hstep (by simp)
  | cons top rest =>
    rw [parseStep] at hstep
    dsimp only at hstep
    set la := tks.getD ptr "" with hla
    by_cases hA : top = "$" ∧ la = "$"
    · rw [if_pos hA] at hstep; exact absurd hstep (by simp)
    · rw [if_neg hA] at hstep
      by_cases hT : tableHasNT top = true
      · rw [if_neg (not_not_intro hT), if_pos hT] at hstep
        cases hlook : lookup2 parsingTable top la with
        | none => rw [hlook] at hstep; exact absurd hstep (by simp)
        | some idx =>
          rw [hlook] at hstep
          dsimp only at hstep
          obtain rfl := PStep.next.inj hstep
          obtain ⟨htop, hcases⟩ := lookup2_parsingTable_cases hlook
          refine ⟨hptr, hdol, ?_⟩
          rw [parseMeasure, parseMeasure]
          dsimp only
          rw [← hla, if_pos hT]
          rcases hcases with ⟨hlaA, rfl⟩ | ⟨hlaG, rfl⟩ | ⟨hlaD, rfl⟩
          · rw [show (pdaGrammar.getD 0 ⟨"", []⟩).rhs = ["A", "S", "T"] from rfl]
            rw [List.cons_append]
            dsimp only
            rw [if_neg (show ¬(tableHasNT "A" = true) by decide)]
            split_ifs <;> omega
          · rw [show (pdaGrammar.getD 1 ⟨"", []⟩).rhs = ["G", "S", "C"] from rfl]
            rw [List.cons_append]
            dsimp only
            rw [if_neg (show ¬(tableHasNT "G" = true) by decide)]
            split_ifs <;> omega
          · rw [show (pdaGrammar.getD 2 ⟨"", []⟩).rhs = ["."] from rfl]
            rw [List.cons_append]
            dsimp only
            rw [if_neg (show ¬(tableHasNT "." = true) by decide)]
            split_ifs <;> omega
      · rw [if_pos hT] at hstep
        by_cases hM : top = la
        · rw [if_pos hM] at hstep
          obtain rfl := PStep.next.inj hstep
          have hadv : ptr + 1 < tks.length := by
            rcases Nat.lt_or_ge (ptr + 1) tks.length with h | h
            · exact h
            · exfalso
              have hp1 : ptr = tks.length - 1 := by omega
              have : la = "$" := by rw [hla, hp1]; exact hlast
              exact hA ⟨hM.trans this, this⟩
          refine ⟨hadv, hdol, ?_⟩
          have h1 := parseMeasure_le tks ⟨rest, ptr + 1, amap⟩
          have h2 := parseMeasure_ge tks ⟨top :: rest, ptr, amap⟩
          dsimp only at h1 h2
          omega
        · rw [if_neg hM] at hstep
          by_cases hMap : assocFind la amap = some top
          · rw [if_pos hMap] at hstep
            obtain rfl := PStep.next.inj hstep
            have hadv : ptr + 1 < tks.length := by
              rcases Nat.lt_or_ge (ptr + 1) tks.length with h | h
              · exact h
              · exfalso
                have hp1 : ptr = tks.length - 1 := by omega
                have hladol : la = "$" := by rw [hla, hp1]; exact hlast
                rw [hladol] at hMap
                rw [hdol] at hMap
                exact absurd hMap (by simp)
            refine ⟨hadv, hdol, ?_⟩
            have h1 := parseMeasure_le tks ⟨rest, ptr + 1, amap⟩
            have h2 := parseMeasure_ge tks ⟨top :: rest, ptr, amap⟩
            dsimp only at h1 h2
            omega
          · rw [if_neg hMap] at hstep
            have hrepair : ∀ m, adaptiveRepair amap top la = .repairedHigh m ∨
                adaptiveRepair amap top la = .repairedWarn m →
                m = amapSet la top amap ∧ la ≠ "$" := by
              intro m hm
              have hlane : la ≠ "$" := by
                intro hEq
                rw [hEq, adaptiveRepair_dollar] at hm
                rcases hm with hm | hm <;> exact absurd hm (by simp)
              refine ⟨?_, hlane⟩
              rw [adaptiveRepair] at hm
              split_ifs at hm <;>
                rcases hm with hm | hm <;>
                  first
                  | exact (RepairResult.repairedHigh.inj hm.symm)
                  | exact (RepairResult.repairedWarn.inj hm.symm)
                  | exact absurd hm (by simp)
            cases hrep : adaptiveRepair amap top la with
            | exited q => rw [hrep] at hstep; exact absurd hstep (by simp)
            | repairedHigh m =>
              rw [hrep] at hstep
              obtain rfl := PStep.next.inj hstep
              obtain ⟨hm, hlane⟩ := hrepair m (Or.inl hrep)
              refine ⟨hptr, ?_, ?_⟩
              · dsimp only
                rw [hm, assocFind_amapSet_other top (Ne.symm hlane)]
                exact hdol
              · rw [parseMeasure, parseMeasure]
                dsimp only
                rw [← hla]
                rw [if_neg hT, if_neg hMap,
                  if_pos (by rw [hm]; exact assocFind_amapSet_self la top amap)]
                omega
            | repairedWarn m =>
              rw [hrep] at hstep
              obtain rfl := PStep.next.inj hstep
              obtain ⟨hm, hlane⟩ := hrepair m (Or.inr hrep)
              refine ⟨hptr, ?_, ?_⟩
              · dsimp only
                rw [hm, assocFind_amapSet_other top (Ne.symm hlane)]
                exact hdol
              · rw [parseMeasure, parseMeasure]
                dsimp only
                rw [← hla]
                rw [if_neg hT, if_neg hMap,
                  if_pos (by rw [hm]; exact assocFind_amapSet_self la top amap)]
                omega

/-- Fuel exceeding `parseMeasure` lets the parser loop reach a result. -/
theorem parseRun_isSome (tks : List String)
    (hlast : tks.getD (tks.length - 1) "" = "$") :
    ∀ (fuel : Nat) (cfg : PCfg), cfg.ptr < tks.length →
      assocFind "$" cfg.amap = none →
      parseMeasure tks cfg < fuel → (parseRun tks fuel cfg).isSome = true := by
  intro fuel
  induction fuel with
  | zero => intro cfg _ _ h; exact absurd h (Nat.not_lt_zero _)
  | succ fuel ih =>
    intro cfg hptr hdol hm
    rw [parseRun]
    cases hstep : parseStep tks cfg with
    | done r => rfl
    | next c' =>
      obtain ⟨h1, h2, h3⟩ := parseStep_next hlast hstep hptr hdol
      exact ih c' h1 h2 (by omega)

/-- Sums over `Finset.range` agree with sums over mapped `List.range`. -/
theorem finsetSum_range_eq_listSum (n : Nat) (f : Nat → Nat) :
    (Finset.range n).sum f = ((List.range n).map f).sum := by
  induction n with
  | zero => simp
  | succ n ih => rw [Finset.sum_range_succ, List.range_succ]; simp [ih]

/-- C8: both dynamically-bounded loops terminate on every input — the
epsilon-closure traversal finishes within the `closureFuel` bound on any
arena (each state is visited at most once, so the cyclic arenas built by
`makeStar` are handled), and the parser loop finishes within the fuel
`parseTokens` supplies for every finite token sequence. -/
theorem c8_core_terminates :
    (∀ (a : Arena) (s : Nat) (closure : List Nat),
        (epsGo a (closureFuel a) [s] [] closure).isSome = true) ∧
      ∀ tokens : List String, (parseTokens tokens).isSome = true := by
  constructor
  · intro a s closure
    apply epsGo_isSome
    rw [epsMeasure, closureFuel]
    have hfilter : (Finset.range a.length).filter (fun x => x ∉ ([] : List Nat)) =
        Finset.range a.length := by
      apply Finset.filter_true_of_mem
      intro x _
      simp
    rw [hfilter, finsetSum_range_eq_listSum]
    simp only [epsDeg, List.length_cons, List.length_nil]
    omega
  · intro tokens
    rw [parseTokens]
    apply parseRun_isSome
    · rw [List.getD_eq_getElem?_getD, ← List.getLast?_eq_getElem?, List.getLast?_concat]
      rfl
    · simp
    · rfl
    · rw [parseMeasure]
      dsimp only
      rw [if_pos (by decide), if_neg (by rw [assocFind]; simp)]
      simp only [List.length_append, List.length_cons, List.length_nil]
      omega

/-! ### C9 — fragment finals are reachable from the fragment start -/

/-- Appending a transition entry only adds targets. -/
theorem lookupTrans_append (nd : Node) (c c' : Char) (t : Nat) :
    lookupTrans (nd ++ [(c, [t])]) c' =
      lookupTrans nd c' ++ (if c = c' then [t] else []) := by
  rw [lookupTrans, lookupTrans, List.filter_append, List.map_append, List.flatten_append]
  congr 1
  by_cases h : c = c'
  · subst h; simp
  · simp [h]

/-- Reading back an updated slot gives the updated node. -/
theorem getD_set_self {a : Arena} {s : Nat} (hs : s < a.length) (nd : Node) :
    (a.set s nd).getD s [] = nd := by
  simp [List.getD, List.get?_eq_getElem?, List.getElem?_set_self hs]

/-- Updating one slot leaves the others unchanged. -/
theorem getD_set_ne (a : Arena) {s x : Nat} (h : s ≠ x) (nd : Node) :
    (a.set s nd).getD x [] = a.getD x [] := by
  simp [List.getD, List.get?_eq_getElem?, List.getElem?_set_ne h]

/-- `ArenaLE` is reflexive. -/
theorem arenaLE_refl {a : Arena} : ArenaLE a a := fun _ _ _ h => h

/-- `ArenaLE` is transitive. -/
theorem arenaLE_trans {a b c : Arena} (h1 : ArenaLE a b) (h2 : ArenaLE b c) :
    ArenaLE a c := fun s ch t h => h2 s ch t (h1 s ch t h)

/-- Reachability is monotone under arena extension. -/
theorem reach_mono {a b : Arena} (hle : ArenaLE a b) {s t : Nat}
    (h : Reach a s t) : Reach b s t :=
  Relation.ReflTransGen.mono (fun x y ⟨c, hm⟩ => ⟨c, hle x c y hm⟩) h

/-- A single transition yields reachability. -/
theorem reach_of_edge {a : Arena} {s t : Nat} (h : EdgeStep a s t) : Reach a s t :=
  Relation.ReflTransGen.single h

/-- Allocating a fresh state does not change any transition. -/
theorem stCreate_le (a : Arena) : ArenaLE a (a ++ [[]]) := by
  intro s c t h
  by_cases hs : s < a.length
  · rwa [List.getD_append _ _ _ _ hs]
  · rw [List.getD_eq_default _ _ (Nat.le_of_not_lt hs)] at h
    simp [lookupTrans] at h

/-- `pushTrans` extends the arena. -/
theorem pushTrans_le (a : Arena) (s : Nat) (c : Char) (t : Nat) :
    ArenaLE a (pushTrans a s c t) := by
  intro x c' u h
  rw [pushTrans]
  by_cases hs : s < a.length
  · by_cases hx : s = x
    · subst hx
      rw [getD_set_self hs, lookupTrans_append]
      exact List.mem_append_left _ h
    · rw [getD_set_ne a hx]
      exact h
  · rw [List.set_eq_of_length_le (Nat.le_of_not_lt hs)]
    exact h

/-- `pushTrans` keeps the arena length. -/
theorem pushTrans_length (a : Arena) (s : Nat) (c : Char) (t : Nat) :
    (pushTrans a s c t).length = a.length := by
  rw [pushTrans, List.length_set]

/-- `pushTrans` creates its transition (for an in-range state). -/
theorem pushTrans_edge {a : Arena} {s : Nat} (c : Char) (t : Nat)
    (hs : s < a.length) : EdgeStep (pushTrans a s c t) s t := by
  refine ⟨c, ?_⟩
  rw [pushTrans, getD_set_self hs, lookupTrans_append, if_pos rfl]
  exact List.mem_append_right _ (List.mem_singleton_self t)

/-- An existing transition survives an `ArenaLE` extension. -/
theorem edgeStep_mono {a b : Arena} (hle : ArenaLE a b) {s t : Nat}
    (h : EdgeStep a s t) : EdgeStep b s t := by
  obtain ⟨c, hm⟩ := h
  exact ⟨c, hle s c t hm⟩

/-- `linkFinals` extends the arena. -/
theorem linkFinals_le (tgt : Nat) :
    ∀ (fs : List Nat) (a : Arena), ArenaLE a (linkFinals tgt a fs) := by
  intro fs
  induction fs with
  | nil => intro a; rw [linkFinals]; exact arenaLE_refl
  | cons f fs ih =>
    intro a
    rw [linkFinals]
    exact arenaLE_trans (pushTrans_le a f 'E' tgt) (ih _)

/-- `linkFinals` keeps the arena length. -/
theorem linkFinals_length (tgt : Nat) :
    ∀ (fs : List Nat) (a : Arena), (linkFinals tgt a fs).length = a.length := by
  intro fs
  induction fs with
  | nil => intro a; rw [linkFinals]
  | cons f fs ih =>
    intro a
    rw [linkFinals, ih, pushTrans_length]

/-- `linkFinals` gives every listed in-range state an epsilon edge to the
target. -/
theorem linkFinals_edge (tgt : Nat) :
    ∀ (fs : List Nat) (a : Arena) (f : Nat), f ∈ fs → f < a.length →
      EdgeStep (linkFinals tgt a fs) f tgt := by
  intro fs
  induction fs with
  | nil => intro a f hf _; exact absurd hf (List.not_mem_nil f)
  | cons f0 fs ih =>
    intro a f hf hlt
    rw [linkFinals]
    rcases List.mem_cons.1 hf with rfl | hf'
    · exact edgeStep_mono (linkFinals_le tgt fs _) (pushTrans_edge 'E' tgt hlt)
    · exact ih _ f hf' (by rwa [pushTrans_length])

/-- `linkFinalsStar` extends the arena. -/
theorem linkFinalsStar_le (lt et : Nat) :
    ∀ (fs : List Nat) (a : Arena), ArenaLE a (linkFinalsStar lt et a fs) := by
  intro fs
  induction fs with
  | nil => intro a; rw [linkFinalsStar]; exact arenaLE_refl
  | cons f fs ih =>
    intro a
    rw [linkFinalsStar]
    exact arenaLE_trans (pushTrans_le a f 'E' lt)
      (arenaLE_trans (pushTrans_le _ f 'E' et) (ih _))

/-- `linkFinalsStar` keeps the arena length. -/
theorem linkFinalsStar_length (lt et : Nat) :
    ∀ (fs : List Nat) (a : Arena), (linkFinalsStar lt et a fs).length = a.length := by
  intro fs
  induction fs with
  | nil => intro a; rw [linkFinalsStar]
  | cons f fs ih =>
    intro a
    rw [linkFinalsStar, ih, pushTrans_length, pushTrans_length]

/-- `FragWF` survives arena extension. -/
theorem fragWF_mono {a b : Arena} {f : Frag} (h : FragWF a f) (hle : ArenaLE a b)
    (hlen : a.length ≤ b.length) : FragWF b f :=
  ⟨lt_of_lt_of_le h.1 hlen, fun t ht => lt_of_lt_of_le (h.2.1 t ht) hlen, h.2.2.1,
   fun t ht => reach_mono hle (h.2.2.2 t ht)⟩

/-- `makeChar` extends the arena by its two fresh states and returns a
well-formed fragment: the end state is reachable over the literal edge. -/
theorem makeChar_spec (a : Arena) (c : Char) :
    ArenaLE a (makeChar a c).1 ∧ a.length + 2 = (makeChar a c).1.length ∧
      FragWF (makeChar a c).1 (makeChar a c).2 := by
  have he1 : (makeChar a c).1 =
      pushTrans ((a ++ [[]]) ++ [[]]) a.length c ((a ++ [[]]).length) := rfl
  have he2 : (makeChar a c).2 = ⟨a.length, [(a ++ [[]]).length]⟩ := rfl
  have hlen : (makeChar a c).1.length = a.length + 2 := by
    rw [he1, pushTrans_length]; simp
  refine ⟨?_, hlen.symm, ?_⟩
  · rw [he1]
    exact arenaLE_trans (stCreate_le a)
      (arenaLE_trans (stCreate_le (a ++ [[]])) (pushTrans_le _ _ _ _))
  · refine ⟨?_, ?_, ?_, ?_⟩
    · rw [he2, hlen]; dsimp only; omega
    · rw [he2, hlen]; intro t ht; simp at ht; subst ht; simp
    · rw [he2]; simp
    · rw [he2]
      intro t ht
      simp only [List.mem_singleton] at ht
      subst ht
      refine reach_of_edge ?_
      rw [he1]
      exact pushTrans_edge c _ (by simp)

/-- `makeConcat` keeps the arena length, extends it, and returns a
well-formed fragment: go through any final of the first operand, over the
new epsilon edge, into the second operand. -/
theorem makeConcat_spec {a : Arena} {f1 f2 : Frag}
    (h1 : FragWF a f1) (h2 : FragWF a f2) :
    ArenaLE a (makeConcat a f1 f2).1 ∧ (makeConcat a f1 f2).1.length = a.length ∧
      FragWF (makeConcat a f1 f2).1 (makeConcat a f1 f2).2 := by
  have he1 : (makeConcat a f1 f2).1 = linkFinals f2.start a f1.finals := rfl
  have he2 : (makeConcat a f1 f2).2 = ⟨f1.start, f2.finals⟩ := rfl
  have hle : ArenaLE a (makeConcat a f1 f2).1 := he1 ▸ linkFinals_le _ _ _
  have hlen : (makeConcat a f1 f2).1.length = a.length := by
    rw [he1, linkFinals_length]
  refine ⟨hle, hlen, ?_⟩
  refine ⟨?_, ?_, ?_, ?_⟩
  · rw [he2, hlen]; exact h1.1
  · rw [he2, hlen]; exact h2.2.1
  · rw [he2]; exact h2.2.2.1
  · rw [he2]
    intro t ht
    obtain ⟨f0, hf0⟩ := List.exists_mem_of_ne_nil f1.finals h1.2.2.1
    have hR1 : Reach (makeConcat a f1 f2).1 f1.start f0 :=
      reach_mono hle (h1.2.2.2 f0 hf0)
    have hE : EdgeStep (makeConcat a f1 f2).1 f0 f2.start := by
      rw [he1]
      exact linkFinals_edge f2.start f1.finals a f0 hf0 (h1.2.1 f0 hf0)
    have hR2 : Reach (makeConcat a f1 f2).1 f2.start t :=
      reach_mono hle (h2.2.2.2 t ht)
    exact Relation.ReflTransGen.trans hR1
      (Relation.ReflTransGen.trans (reach_of_edge hE) hR2)

/-- `makeUnion` extends the arena by two fresh states and returns a
well-formed fragment: the new start steps into the first operand, through it
to one of its finals, and out to the new end. -/
theorem makeUnion_spec {a : Arena} {f1 f2 : Frag}
    (h1 : FragWF a f1) (_h2 : FragWF a f2) :
    ArenaLE a (makeUnion a f1 f2).1 ∧ a.length + 2 = (makeUnion a f1 f2).1.length ∧
      FragWF (makeUnion a f1 f2).1 (makeUnion a f1 f2).2 := by
  set s := a.length with hs
  set e := (a ++ [[]]).length with he
  set a2 : Arena := (a ++ [[]]) ++ [[]] with ha2
  set a3 := pushTrans a2 s 'E' f1.start with ha3
  set a4 := pushTrans a3 s 'E' f2.start with ha4
  set a5 := linkFinals e a4 f1.finals with ha5
  set a6 := linkFinals e a5 f2.finals with ha6
  have he1 : (makeUnion a f1 f2).1 = a6 := rfl
  have he2 : (makeUnion a f1 f2).2 = ⟨s, [e]⟩ := rfl
  have hlen2 : a2.length = a.length + 2 := by rw [ha2]; simp
  have hlen3 : a3.length = a.length + 2 := by rw [ha3, pushTrans_length, hlen2]
  have hlen4 : a4.length = a.length + 2 := by rw [ha4, pushTrans_length, hlen3]
  have hlen5 : a5.length = a.length + 2 := by rw [ha5, linkFinals_length, hlen4]
  have hlen6 : a6.length = a.length + 2 := by rw [ha6, linkFinals_length, hlen5]
  have hle34 : ArenaLE a3 a4 := pushTrans_le _ _ _ _
  have hle45 : ArenaLE a4 a5 := linkFinals_le _ _ _
  have hle56 : ArenaLE a5 a6 := linkFinals_le _ _ _
  have hlea4 : ArenaLE a a4 :=
    arenaLE_trans (stCreate_le a)
      (arenaLE_trans (stCreate_le (a ++ [[]]))
        (arenaLE_trans (pushTrans_le _ _ _ _) hle34))
  have hlea6 : ArenaLE a a6 := arenaLE_trans hlea4 (arenaLE_trans hle45 hle56)
  refine ⟨he1 ▸ hlea6, he1 ▸ hlen6.symm, ?_⟩
  rw [he1, he2]
  refine ⟨?_, ?_, ?_, ?_⟩
  · dsimp only; rw [hlen6]; omega
  · intro t ht; simp only [List.mem_singleton] at ht; subst ht
    rw [hlen6, he]; simp
  · simp
  · intro t ht
    simp only [List.mem_singleton] at ht
    subst ht
    obtain ⟨f0, hf0⟩ := List.exists_mem_of_ne_nil f1.finals h1.2.2.1
    have hEs : EdgeStep a6 s f1.start := by
      have : EdgeStep a3 s f1.start := by
        rw [ha3]
        exact pushTrans_edge 'E' f1.start (by rw [hlen2, hs]; omega)
      exact edgeStep_mono hle56 (edgeStep_mono hle45 (edgeStep_mono hle34 this))
    have hR1 : Reach a6 f1.start f0 :=
      reach_mono hlea6 (h1.2.2.2 f0 hf0)
    have hEf : EdgeStep a6 f0 e := by
      have : EdgeStep a5 f0 e := by
        rw [ha5]
        refine linkFinals_edge e f1.finals a4 f0 hf0 ?_
        rw [hlen4]
        exact Nat.lt_of_lt_of_le (h1.2.1 f0 hf0) (by omega)
      exact edgeStep_mono hle56 this
    exact Relation.ReflTransGen.trans (reach_of_edge hEs)
      (Relation.ReflTransGen.trans hR1 (reach_of_edge hEf))

/-- `makeStar` extends the arena by two fresh states and returns a
well-formed fragment: the new start has a direct epsilon edge to the new
end (zero repetitions). -/
theorem makeStar_spec (a : Arena) (f : Frag) :
    ArenaLE a (makeStar a f).1 ∧ a.length + 2 = (makeStar a f).1.length ∧
      FragWF (makeStar a f).1 (makeStar a f).2 := by
  set s := a.length with hs
  set e := (a ++ [[]]).length with he
  set a2 : Arena := (a ++ [[]]) ++ [[]] with ha2
  set a3 := pushTrans a2 s 'E' f.start with ha3
  set a4 := pushTrans a3 s 'E' e with ha4
  set a5 := linkFinalsStar f.start e a4 f.finals with ha5
  have he1 : (makeStar a f).1 = a5 := rfl
  have he2 : (makeStar a f).2 = ⟨s, [e]⟩ := rfl
  have hlen2 : a2.length = a.length + 2 := by rw [ha2]; simp
  have hlen3 : a3.length = a.length + 2 := by rw [ha3, pushTrans_length, hlen2]
  have hlen4 : a4.length = a.length + 2 := by rw [ha4, pushTrans_length, hlen3]
  have hlen5 : a5.length = a.length + 2 := by rw [ha5, linkFinalsStar_length, hlen4]
  have hle45 : ArenaLE a4 a5 := linkFinalsStar_le _ _ _ _
  have hlea5 : ArenaLE a a5 :=
    arenaLE_trans (stCreate_le a)
      (arenaLE_trans (stCreate_le (a ++ [[]]))
        (arenaLE_trans (pushTrans_le _ _ _ _)
          (arenaLE_trans (pushTrans_le _ _ _ _) hle45)))
  refine ⟨he1 ▸ hlea5, he1 ▸ hlen5.symm, ?_⟩
  rw [he1, he2]
  refine ⟨?_, ?_, ?_, ?_⟩
  · dsimp only; rw [hlen5]; omega
  · intro t ht; simp only [List.mem_singleton] at ht; subst ht
    rw [hlen5, he]; simp
  · simp
  · intro t ht
    simp only [List.mem_singleton] at ht
    subst ht
    refine reach_of_edge ?_
    have : EdgeStep a4 s e := by
      rw [ha4]
      exact pushTrans_edge 'E' e (by rw [hlen3, hs]; omega)
    exact edgeStep_mono hle45 this

/-- The invariant of the `regexToNFA` work stack: if every stacked fragment
is well-formed, a successful build returns a well-formed fragment. -/
theorem buildGo_wf :
    ∀ (l : List Char) (st : List Frag) (a : Arena),
      (∀ fr ∈ st, FragWF a fr) →
      ∀ {a' : Arena} {f : Frag}, buildGo l st a = .ok a' f → FragWF a' f := by
  intro l
  induction l with
  | nil =>
    intro st a hst a' f hok
    rcases st with _ | ⟨f0, _ | ⟨f1, st'⟩⟩ <;> rw [buildGo.eq_def] at hok <;>
      dsimp only at hok
    · simp at hok
    · obtain ⟨rfl, rfl⟩ := BuildResult.ok.inj hok
      exact hst f0 (List.mem_singleton_self f0)
    · simp at hok
  | cons c rest ih =>
    intro st a hst a' f hok
    rw [buildGo.eq_def] at hok
    dsimp only at hok
    by_cases hdot : c = '.'
    · rw [if_pos hdot] at hok
      rcases st with _ | ⟨b, _ | ⟨a2, st'⟩⟩
      · simp at hok
      · simp at hok
      · dsimp only at hok
        rcases hmk : makeConcat a a2 b with ⟨ar, f2⟩
        rw [hmk] at hok
        dsimp only at hok
        have hspec := makeConcat_spec (hst a2 (by simp)) (hst b (by simp))
        rw [hmk] at hspec
        dsimp only at hspec
        refine ih (f2 :: st') ar ?_ hok
        intro fr hfr
        rcases List.mem_cons.1 hfr with rfl | hfr'
        · exact hspec.2.2
        · exact fragWF_mono (hst fr (by simp [hfr'])) hspec.1 (le_of_eq hspec.2.1.symm)
    · rw [if_neg hdot] at hok
      by_cases hbar : c = '|'
      · rw [if_pos hbar] at hok
        rcases st with _ | ⟨b, _ | ⟨a2, st'⟩⟩
        · simp at hok
        · simp at hok
        · dsimp only at hok
          rcases hmk : makeUnion a a2 b with ⟨ar, f2⟩
          rw [hmk] at hok
          dsimp only at hok
          have hspec := makeUnion_spec (hst a2 (by simp)) (hst b (by simp))
          rw [hmk] at hspec
          dsimp only at hspec
          refine ih (f2 :: st') ar ?_ hok
          intro fr hfr
          rcases List.mem_cons.1 hfr with rfl | hfr'
          · exact hspec.2.2
          · exact fragWF_mono (hst fr (by simp [hfr'])) hspec.1 (by omega)
      · rw [if_neg hbar] at hok
        by_cases hstar : c = '*'
        · rw [if_pos hstar] at hok
          rcases st with _ | ⟨f1, st'⟩
          · simp at hok
          · dsimp only at hok
            rcases hmk : makeStar a f1 with ⟨ar, f2⟩
            rw [hmk] at hok
            dsimp only at hok
            have hspec := makeStar_spec a f1
            rw [hmk] at hspec
            dsimp only at hspec
            refine ih (f2 :: st') ar ?_ hok
            intro fr hfr
            rcases List.mem_cons.1 hfr with rfl | hfr'
            · exact hspec.2.2
            · exact fragWF_mono (hst fr (by simp [hfr'])) hspec.1 (by omega)
        · rw [if_neg hstar] at hok
          rcases hmk : makeChar a c with ⟨ar, f2⟩
          rw [hmk] at hok
          dsimp only at hok
          have hspec := makeChar_spec a c
          rw [hmk] at hspec
          dsimp only at hspec
          refine ih (f2 :: st) ar ?_ hok
          intro fr hfr
          rcases List.mem_cons.1 hfr with rfl | hfr'
          · exact hspec.2.2
          · exact fragWF_mono (hst fr hfr') hspec.1 (by omega)

/-- C9: on any postfix string on which construction succeeds, every final
state of the fragment `regexToNFA` returns is reachable from its start state
via zero or more transitions (and the per-operation lemmas above show the
same for each fragment `makeChar`, `makeConcat`, `makeUnion` and `makeStar`
produce from well-formed operands). -/
theorem c9_finals_reachable {pf : String} {a : Arena} {f : Frag}
    (h : regexToNFA pf = .ok a f) : ∀ t ∈ f.finals, Reach a f.start t := by
  have hwf := buildGo_wf pf.toList [] []
    (fun fr hfr => absurd hfr (List.not_mem_nil fr)) h
  exact hwf.2.2.2

/-- C9 witness: for the one-literal postfix `A`, the built fragment's final
state `1` is reachable from its start state `0`. -/
theorem c9_witness : Reach [[('A', [1])], []] 0 1 :=
  @c9_finals_reachable "A" [[('A', [1])], []] ⟨0, [1]⟩ rfl 1 (by simp)

/-! ### C10 — simulation is read-only and repeatable -/

/-- The closure traversal never changes the arena: every
`transitions['E']` access is behind the `count` guard, under which
`mapIndex` hands the node back unchanged. -/
theorem epsGo_arena_eq (a : Arena) :
    ∀ (fuel : Nat) (pending visited closure : List Nat) {a' : Arena}
      {v w : List Nat}, epsGo a fuel pending visited closure = some (a', v, w) →
      a' = a := by
  intro fuel
  induction fuel with
  | zero =>
    intro pending visited closure a' v w h
    rw [epsGo] at h
    exact absurd h (by simp)
  | succ fuel ih =>
    intro pending visited closure a' v w h
    cases pending with
    | nil =>
      rw [epsGo] at h
      simp only [Option.some.injEq, Prod.mk.injEq] at h
      exact h.1.symm
    | cons s pending =>
      by_cases hv : s ∈ visited
      · rw [epsGo_cons_visited hv] at h; exact ih _ _ _ h
      · by_cases hE : lookupHas (a.getD s []) 'E' = true
        · rw [epsGo_cons_unvisited_hasE hv hE] at h; exact ih _ _ _ h
        · rw [epsGo_cons_unvisited_noE hv (Bool.not_eq_true _ ▸ hE)] at h
          exact ih _ _ _ h

/-- The per-target closure loop never changes the arena. -/
theorem targetsGo_arena_eq (aN : Nat) :
    ∀ (ts : List Nat) (a : Arena) (acc : List Nat) {a' : Arena} {acc' : List Nat},
      targetsGo aN a ts acc = some (a', acc') → a' = a := by
  intro ts
  induction ts with
  | nil =>
    intro a acc a' acc' h
    rw [targetsGo] at h
    simp only [Option.some.injEq, Prod.mk.injEq] at h
    exact h.1.symm
  | cons t ts ih =>
    intro a acc a' acc' h
    rw [targetsGo] at h
    cases hep : epsGo a aN [t] [] acc with
    | none => rw [hep] at h; exact absurd h (by simp)
    | some res =>
      obtain ⟨a1, v1, c1⟩ := res
      rw [hep] at h
      dsimp only at h
      obtain rfl := epsGo_arena_eq a aN [t] [] acc hep
      exact ih _ _ h

/-- `mapIndex` under the `count` guard returns the node unchanged. -/
theorem mapIndex_of_has {nd : Node} {c : Char} (h : lookupHas nd c = true) :
    mapIndex nd c = (nd, lookupTrans nd c) := by
  rw [mapIndex, if_pos h]

/-- A simulation step never changes the arena. -/
theorem simStepGo_arena_eq (aN : Nat) (c : Char) :
    ∀ (cur : List Nat) (a : Arena) (acc : List Nat) (moves : List (Nat × List Nat))
      {a' : Arena} {acc' : List Nat} {mv : List (Nat × List Nat)},
      simStepGo aN c a cur acc moves = some (a', acc', mv) → a' = a := by
  intro cur
  induction cur with
  | nil =>
    intro a acc moves a' acc' mv h
    rw [simStepGo] at h
    simp only [Option.some.injEq, Prod.mk.injEq] at h
    exact h.1.symm
  | cons s ss ih =>
    intro a acc moves a' acc' mv h
    rw [simStepGo] at h
    by_cases hH : lookupHas (a.getD s []) c = true
    · rw [if_pos hH, mapIndex_of_has hH] at h
      dsimp only at h
      rw [set_getD_self] at h
      cases htg : targetsGo aN a (lookupTrans (a.getD s []) c) acc with
      | none => rw [htg] at h; exact absurd h (by simp)
      | some res =>
        obtain ⟨a1, acc1⟩ := res
        rw [htg] at h
        dsimp only at h
        obtain rfl := targetsGo_arena_eq aN _ a acc htg
        exact ih _ _ _ h
    · rw [if_neg hH] at h
      exact ih _ _ _ h

/-- The character loop of `simulateNFA` never changes the arena. -/
theorem simGoM_arena_eq (aN : Nat) (finals : List Nat) :
    ∀ (l : List Char) (a : Arena) (cur : List Nat),
      (simGoM aN finals a cur l).1 = a := by
  intro l
  induction l with
  | nil => intro a cur; rw [simGoM]
  | cons c rest ih =>
    intro a cur
    rw [simGoM]
    cases hst : simStepGo aN c a cur [] [] with
    | none => rfl
    | some res =>
      obtain ⟨a1, next, mv⟩ := res
      obtain rfl := simStepGo_arena_eq aN c cur a [] [] hst
      dsimp only
      by_cases hemp : next.isEmpty
      · rw [if_pos hemp]
      · rw [if_neg hemp]; exact ih _ _

/-- The character loop of `simulateNFAWithTrace` never changes the arena. -/
theorem traceGoM_arena_eq (aN : Nat) (finals : List Nat) :
    ∀ (l : List Char) (a : Arena) (cur : List Nat) (pos : Nat) (tr : List TraceEntry),
      (traceGoM aN finals a cur pos l tr).1 = a := by
  intro l
  induction l with
  | nil => intro a cur pos tr; rw [traceGoM]
  | cons c rest ih =>
    intro a cur pos tr
    rw [traceGoM]
    cases hst : simStepGo aN c a cur [] [] with
    | none => rfl
    | some res =>
      obtain ⟨a1, next, mv⟩ := res
      obtain rfl := simStepGo_arena_eq aN c cur a [] [] hst
      dsimp only
      by_cases hemp : next.isEmpty
      · rw [if_pos hemp]
      · rw [if_neg hemp]; exact ih _ _ _ _

/-- C10: simulation is read-only and repeatable.  Both `simulateNFA` and the
trace variant leave every state's transition table — the arena — exactly as
they found it (the fragment's start/final sets are values they never write),
and running `simulateNFA` again on the arena the first run returns yields
the same verdict. -/
theorem c10_simulation_read_only (a : Arena) (nfa : Frag) (input : String) :
    (simulateNFAM a nfa input).1 = a ∧
      (simulateNFAM ((simulateNFAM a nfa input).1) nfa input).2 =
        (simulateNFAM a nfa input).2 ∧
      (simulateNFAWithTraceM a nfa input).1 = a := by
  have h1 : (simulateNFAM a nfa input).1 = a := by
    rw [simulateNFAM]
    cases hep : epsGo a (closureFuel a) [nfa.start] [] [] with
    | none => rfl
    | some res =>
      obtain ⟨a1, v1, cur⟩ := res
      dsimp only
      obtain rfl := epsGo_arena_eq a _ _ _ _ hep
      exact simGoM_arena_eq _ _ _ _ _
  have h3 : (simulateNFAWithTraceM a nfa input).1 = a := by
    rw [simulateNFAWithTraceM]
    cases hep : epsGo a (closureFuel a) [nfa.start] [] [] with
    | none => rfl
    | some res =>
      obtain ⟨a1, v1, cur⟩ := res
      dsimp only
      obtain rfl := epsGo_arena_eq a _ _ _ _ hep
      exact traceGoM_arena_eq _ _ _ _ _ _ _
  refine ⟨h1, ?_, h3⟩
  rw [h1]
